import Mathlib

/-!
Verification of the timer / sleep-queue subsystem (`src/devices/timer.c`).

The C file is shallowly embedded below.  Machine integers are modelled as
`Int` (the 64-bit tick counter never overflows per the spec, §9) or `Nat`
(the unsigned `loops_per_tick` and its bit manipulations); C `int64_t`
division and modulus truncate toward zero and are rendered with `Int.tdiv`
and `Int.tmod`.  The hardware measurement `too_many_loops` is abstracted as
an arbitrary function `tml : Nat → Bool`; the compile-time constant
`TIMER_FREQ` is a parameter `F`.  The scheduler collaborators
(`thread_block`, `thread_unblock`, `thread_tick`) are modelled by their
observable effect on the timer state: which entries sit in the sleep queue
and which entries each interrupt unblocks.
-/

/-- A record in the sleep queue: a sleeping thread, identified by `tid`,
together with its `wake_tick` field (`struct thread` as used by timer.c). -/
structure SleepEntry where
  tid : Nat
  wake_tick : Int
deriving DecidableEq

/-- Timer-subsystem state: the global tick counter `ticks` (timer.c line 71)
and the ordered `sleeping_list` (line 77). -/
structure TimerState where
  ticks : Int
  sleeping_list : List SleepEntry
deriving DecidableEq

/-- `timer_ticks` (timer.c lines 127-134): returns the current tick count.
The interrupt-masking around the read only matters for atomicity, which the
sequential embedding gives for free. -/
def timer_ticks (st : TimerState) : Int :=
  st.ticks

/-- `timer_elapsed` (timer.c lines 138-141). -/
def timer_elapsed (st : TimerState) (then_ : Int) : Int :=
  timer_ticks st - then_

/-- `wake_up_cmp` (timer.c lines 144-149): strict comparison of two sleepers
by their `wake_tick`. -/
def wake_up_cmp (a b : SleepEntry) : Bool :=
  a.wake_tick < b.wake_tick

/-- Modelled from the spec: `list_insert_ordered` lives in
`lib/kernel/list.c`, which is not under `src/`.  Per the spec (§4.4 step 5)
the new element is inserted at the position that preserves ascending order,
after all entries the comparator does not place strictly after it; i.e. it
goes immediately before the first element `e` with `less x e`. -/
def list_insert_ordered (less : SleepEntry → SleepEntry → Bool) (x : SleepEntry) :
    List SleepEntry → List SleepEntry
  | [] => [x]
  | e :: es => if less x e then x :: e :: es else e :: list_insert_ordered less x es

/-- `timer_sleep` (timer.c lines 151-164): captures `start = timer_ticks()`,
returns at once when the argument is non-positive, otherwise sets
`wake_tick = start + n`, inserts the current thread (identified by `tid`)
into `sleeping_list` via `wake_up_cmp` and blocks.  The returned `Bool`
records whether `thread_block` was called. -/
def timer_sleep (tid : Nat) (n : Int) (st : TimerState) : TimerState × Bool :=
  let start := timer_ticks st
  if n ≤ 0 then (st, false)
  else
    let t : SleepEntry := ⟨tid, start + n⟩
    (⟨st.ticks, list_insert_ordered wake_up_cmp t st.sleeping_list⟩, true)

/-- The drain loop of `timer_interrupt` (timer.c lines 199-213): from the
head, while the head is due (`wake_tick ≤ now`), remove and unblock it; stop
at the first element that is not due.  `now` is the value `timer_ticks()`
yields inside the handler; `ticks` cannot change while the handler runs, so
reading it once is equivalent to the per-iteration read in the C loop.
Returns the remaining queue and the unblocked entries in unblock order. -/
def drain (now : Int) : List SleepEntry → List SleepEntry × List SleepEntry
  | [] => ([], [])
  | t :: rest =>
    if t.wake_tick ≤ now then
      let r := drain now rest
      (r.1, t :: r.2)
    else (t :: rest, [])

/-- `timer_interrupt` (timer.c lines 193-214): increments `ticks`, notifies
the scheduler (`thread_tick`, external), then drains due sleepers.  Returns
the new state and the entries passed to `thread_unblock`, in order. -/
def timer_interrupt (st : TimerState) : TimerState × List SleepEntry :=
  let now := st.ticks + 1
  let r := drain now st.sleeping_list
  (⟨now, r.1⟩, r.2)

/-- Externally visible events driving the subsystem: a call
`timer_sleep n` by thread `tid`, or one tick interrupt. -/
inductive Ev where
  | sleep (tid : Nat) (n : Int)
  | tick
deriving DecidableEq

/-- One event step.  The log records, for each entry unblocked by a tick,
the pair (entry, tick-counter value at the moment of unblock). -/
def stepEv (st : TimerState) : Ev → TimerState × List (SleepEntry × Int)
  | .sleep tid n => ((timer_sleep tid n st).1, [])
  | .tick =>
    let r := timer_interrupt st
    (r.1, r.2.map (fun e => (e, r.1.ticks)))

/-- Run a sequence of events, accumulating the unblock log. -/
def runEvents (st : TimerState) : List Ev → TimerState × List (SleepEntry × Int)
  | [] => (st, [])
  | e :: evs =>
    let r := stepEv st e
    let r2 := runEvents r.1 evs
    (r2.1, r.2 ++ r2.2)

/-- The sleep-queue ordering invariant (spec §3): ascending `wake_tick`. -/
def SQSorted (l : List SleepEntry) : Prop :=
  l.Pairwise (fun a b => a.wake_tick ≤ b.wake_tick)

instance (l : List SleepEntry) : Decidable (SQSorted l) := by
  unfold SQSorted; infer_instance

/-- The refinement loop of `timer_calibrate` (timer.c lines 117-121):
`for (test_bit = high_bit >> 1; test_bit != high_bit >> 10; test_bit >>= 1)
  if (!too_many_loops (high_bit | test_bit)) loops_per_tick |= test_bit;`
with `tml` abstracting the measurement `too_many_loops` and `L` the running
`loops_per_tick`.  The `test_bit = 0` branch is only there for termination;
starting from `high_bit >> 1` the C loop variable reaches `high_bit >> 10`
exactly, so that branch is never taken from the real entry point. -/
def calibRefineAux (tml : Nat → Bool) (high_bit test_bit L : Nat) : Nat :=
  if test_bit = high_bit >>> 10 then L
  else if _h0 : test_bit = 0 then L
  else
    calibRefineAux tml high_bit (test_bit >>> 1)
      (if tml (high_bit ||| test_bit) then L else L ||| test_bit)
termination_by test_bit
decreasing_by
  simp only [Nat.shiftRight_eq_div_pow, pow_one]
  omega

/-- Refinement phase of `timer_calibrate` (timer.c lines 117-121), entered
with `loops_per_tick = high_bit` and `test_bit = high_bit >> 1`. -/
def timer_calibrate_refine (tml : Nat → Bool) (high_bit : Nat) : Nat :=
  calibRefineAux tml high_bit (high_bit >>> 1) high_bit

/-- The refinement algorithm exactly as claim C1 words it (written from the
claim, for comparison with `timer_calibrate_refine`): candidate bits
`b = H >>> 1, …, H >>> 10` — ten bits — and each bit is kept in the
accumulated result `L` exactly when `too_many_loops (L ||| b)` is false,
where `L` includes all previously kept refinement bits. -/
def refineClaimC1 (tml : Nat → Bool) (H : Nat) : Nat :=
  (List.range 10).foldl
    (fun L k =>
      if tml (L ||| (H >>> (k + 1))) then L else L ||| (H >>> (k + 1))) H

/-- One refinement step at bit index `k`: keep bit `H >>> k` in `L` exactly
when `too_many_loops (H ||| (H >>> k))` is false — the test is against the
coarse power-of-two `H`, not against the accumulated result. -/
def refineStep (tml : Nat → Bool) (H L k : Nat) : Nat :=
  if tml (H ||| (H >>> k)) then L else L ||| (H >>> k)

/-- Fuel-indexed upward loop applying `refineStep` for `k, k+1, …, 9`. -/
def refineFrom (tml : Nat → Bool) (H : Nat) : Nat → Nat → Nat → Nat
  | 0, _, L => L
  | fuel + 1, k, L =>
    if k < 10 then refineFrom tml H fuel (k + 1) (refineStep tml H L k) else L

/-- Amended refinement description: nine candidate bits
`H >>> 1, …, H >>> 9`, each kept exactly when
`too_many_loops (H ||| (H >>> k))` is false. -/
def refineNineBits (tml : Nat → Bool) (H : Nat) : Nat :=
  refineFrom tml H 9 1 H

/-- `busy_wait` (timer.c lines 241-245): `while (loops-- > 0) barrier ();`.
The embedding returns the number of executed loop-body iterations. -/
def busy_wait (loops : Int) : Nat :=
  if 0 < loops then busy_wait (loops - 1) + 1 else 0
termination_by loops.toNat
decreasing_by omega

/-- Dispatch outcome of `real_time_sleep`: either a blocking
`timer_sleep t` or a `busy_wait loops` call. -/
inductive RTAction where
  | sleep (t : Int)
  | busy (loops : Int)
deriving DecidableEq

/-- Integer division rounding toward zero, as the spec words it: divide the
magnitudes and give the quotient the sign of the exact quotient.  This is
the C `/` on `int64_t`; it is proved equal to `Int.tdiv` below. -/
def truncDiv (a b : Int) : Int :=
  a.sign * b.sign * ((a.natAbs / b.natAbs : Nat) : Int)

/-- `real_time_sleep` (timer.c lines 248-271).  `F` is the compile-time
constant `TIMER_FREQ`, `lpt` the calibrated `loops_per_tick` (unsigned,
promoted to `int64_t` in the C arithmetic).  Returns `none` when
`ASSERT (denom % 1000 == 0)` fires, otherwise the dispatched action:
`timer_sleep ticks` when `ticks = num * TIMER_FREQ / denom > 0`, else
`busy_wait (loops_per_tick * num / 1000 * TIMER_FREQ / (denom / 1000))`. -/
def real_time_sleep (F : Int) (lpt : Nat) (num denom : Int) : Option RTAction :=
  let t := (num * F).tdiv denom
  if 0 < t then some (.sleep t)
  else if denom.tmod 1000 = 0 then
    some (.busy ((((lpt : Int) * num).tdiv 1000 * F).tdiv (denom.tdiv 1000)))
  else none

/-- `timer_msleep` (timer.c lines 169-172). -/
def timer_msleep (F : Int) (lpt : Nat) (ms : Int) : Option RTAction :=
  real_time_sleep F lpt ms 1000

/-- `timer_usleep` (timer.c lines 175-178). -/
def timer_usleep (F : Int) (lpt : Nat) (us : Int) : Option RTAction :=
  real_time_sleep F lpt us (1000 * 1000)

/-- `timer_nsleep` (timer.c lines 181-184). -/
def timer_nsleep (F : Int) (lpt : Nat) (ns : Int) : Option RTAction :=
  real_time_sleep F lpt ns (1000 * 1000 * 1000)

/-- The PIT divisor computed by `timer_init` (timer.c line 91) before its
truncation to `uint16_t`: `(1193180 + TIMER_FREQ / 2) / TIMER_FREQ`. -/
def pit_count (F : Nat) : Nat :=
  (1193180 + F / 2) / F

/-! ## Helper lemmas about the drain loop and the ordered insertion -/

/-- The drain loop keeps the longest due prefix semantics: it removes and
unblocks exactly the `takeWhile` prefix of due entries. -/
theorem drain_eq (now : Int) (l : List SleepEntry) :
    drain now l = (l.dropWhile (fun e => e.wake_tick ≤ now),
                   l.takeWhile (fun e => e.wake_tick ≤ now)) := by
  induction l with
  | nil => rfl
  | cons t rest ih =>
    by_cases h : t.wake_tick ≤ now
    · simp [drain, h, ih, List.dropWhile_cons, List.takeWhile_cons]
    · simp [drain, h, List.dropWhile_cons, List.takeWhile_cons]

/-- Every entry in the due prefix is in fact due. -/
theorem mem_takeWhile_le (c : Int) (l : List SleepEntry) (e : SleepEntry)
    (he : e ∈ l.takeWhile (fun x => x.wake_tick ≤ c)) : e.wake_tick ≤ c := by
  have := List.mem_takeWhile_imp he
  simpa using this

/-- In a sorted queue, every due entry sits in the due (`takeWhile`) prefix. -/
theorem mem_takeWhile_of_sorted (c : Int) (l : List SleepEntry) (hs : SQSorted l)
    (e : SleepEntry) (he : e ∈ l) (hw : e.wake_tick ≤ c) :
    e ∈ l.takeWhile (fun x => x.wake_tick ≤ c) := by
  induction l with
  | nil => simp at he
  | cons a rest ih =>
    rcases List.pairwise_cons.mp hs with ⟨ha, hrest⟩
    rcases List.mem_cons.mp he with rfl | he2
    · simp [List.takeWhile_cons, hw]
    · have hale : a.wake_tick ≤ c := le_trans (ha e he2) hw
      simp only [List.takeWhile_cons]
      rw [if_pos (by simpa using hale)]
      exact List.mem_cons_of_mem a (ih hrest he2)

/-- In a sorted queue, every entry left after dropping the `≤ c` prefix is
strictly later than `c`. -/
theorem mem_dropWhile_gt (c : Int) (l : List SleepEntry) (hs : SQSorted l) :
    ∀ e ∈ l.dropWhile (fun x => x.wake_tick ≤ c), c < e.wake_tick := by
  induction l with
  | nil => simp
  | cons a rest ih =>
    rcases List.pairwise_cons.mp hs with ⟨ha, hrest⟩
    by_cases h : a.wake_tick ≤ c
    · simpa [List.dropWhile_cons, h] using ih hrest
    · intro e he
      rw [List.dropWhile_cons, if_neg (by simpa using h)] at he
      rcases List.mem_cons.mp he with rfl | he2
      · omega
      · exact lt_of_lt_of_le (by omega) (ha e he2)

/-- `list_insert_ordered` with `wake_up_cmp` splits the queue at the first
entry with a strictly greater wake tick and puts the new entry there. -/
theorem list_insert_ordered_split (t : SleepEntry) (l : List SleepEntry) :
    list_insert_ordered wake_up_cmp t l =
      l.takeWhile (fun e => e.wake_tick ≤ t.wake_tick) ++
        t :: l.dropWhile (fun e => e.wake_tick ≤ t.wake_tick) := by
  induction l with
  | nil => rfl
  | cons a rest ih =>
    by_cases h : a.wake_tick ≤ t.wake_tick
    · have hcmp : wake_up_cmp t a = false := by
        simp [wake_up_cmp]; omega
      simp [list_insert_ordered, hcmp, List.takeWhile_cons, List.dropWhile_cons, h, ih]
    · have hcmp : wake_up_cmp t a = true := by
        simp [wake_up_cmp]; omega
      simp [list_insert_ordered, hcmp, List.takeWhile_cons, List.dropWhile_cons, h]

/-- Ordered insertion preserves the sleep-queue ordering invariant. -/
theorem list_insert_ordered_sorted (t : SleepEntry) (l : List SleepEntry)
    (hs : SQSorted l) : SQSorted (list_insert_ordered wake_up_cmp t l) := by
  rw [list_insert_ordered_split]
  unfold SQSorted at hs ⊢
  rw [List.pairwise_append]
  refine ⟨List.Pairwise.sublist (List.takeWhile_sublist _) hs, ?_, ?_⟩
  · rw [List.pairwise_cons]
    refine ⟨?_, List.Pairwise.sublist (List.dropWhile_sublist _) hs⟩
    intro e he
    exact le_of_lt (mem_dropWhile_gt t.wake_tick l hs e he)
  · intro a ha b hb
    have h1 : a.wake_tick ≤ t.wake_tick := mem_takeWhile_le _ _ _ ha
    rcases List.mem_cons.mp hb with rfl | hb
    · exact h1
    · exact le_trans h1 (le_of_lt (mem_dropWhile_gt t.wake_tick l hs b hb))

/-- Invariant: whenever a tick unblocks an entry, the entry is due at the
tick-counter value recorded in the log. -/
theorem runEvents_log_due (st : TimerState) (evs : List Ev) :
    ∀ p ∈ (runEvents st evs).2, p.1.wake_tick ≤ p.2 := by
  induction evs generalizing st with
  | nil => simp [runEvents]
  | cons e evs ih =>
    intro p hp
    simp only [runEvents, List.mem_append] at hp
    rcases hp with hp | hp
    · cases e with
      | sleep tid n => simp [stepEv] at hp
      | tick =>
        simp only [stepEv, List.mem_map] at hp
        obtain ⟨a, ha, rfl⟩ := hp
        simp only [timer_interrupt, drain_eq] at ha ⊢
        exact mem_takeWhile_le _ _ _ ha
    · exact ih _ p hp

/-! ## Arithmetic helpers -/

/-- Lean's truncating integer division `Int.tdiv` (C `/` on `int64_t`)
agrees with the sign-and-magnitude description `truncDiv`. -/
theorem tdiv_eq_truncDiv (a b : Int) : a.tdiv b = truncDiv a b := by
  rcases a with m | m <;> rcases b with n | n
  · show Int.ofNat (m / n) =
      (Int.ofNat m).sign * (Int.ofNat n).sign * Int.ofNat (m / n)
    rcases m with _ | m0
    · simp
    · rcases n with _ | n0
      · simp [Int.sign]
      · simp [Int.sign]
  · show -Int.ofNat (m / (n + 1)) =
      (Int.ofNat m).sign * (Int.negSucc n).sign * Int.ofNat (m / (n + 1))
    rcases m with _ | m0
    · simp
    · simp [Int.sign]
  · show -Int.ofNat ((m + 1) / n) =
      (Int.negSucc m).sign * (Int.ofNat n).sign * Int.ofNat ((m + 1) / n)
    rcases n with _ | n0
    · simp [Int.sign]
    · simp [Int.sign]
  · show Int.ofNat ((m + 1) / (n + 1)) =
      (Int.negSucc m).sign * (Int.negSucc n).sign * Int.ofNat ((m + 1) / (n + 1))
    simp [Int.sign]

/-- `busy_wait` terminates on every argument and executes exactly
`max loops 0` iterations of the loop body. -/
theorem busy_wait_iters (loops : Int) : (busy_wait loops : Int) = max loops 0 := by
  rw [busy_wait]
  split
  · have h := busy_wait_iters (loops - 1)
    push_cast
    omega
  · push_cast
    omega
termination_by loops.toNat
decreasing_by omega

/-- For `2 ^ 10 ≤ H` the loop variable values `H >>> k`, `k < 10`, are all
strictly above the stopping value `H >>> 10` (hence nonzero and distinct
from it). -/
theorem shiftRight_ten_lt (H k : Nat) (hk : k < 10) (hH : 2 ^ 10 ≤ H) :
    H >>> 10 < H >>> k := by
  have h1 : 1 ≤ H >>> 10 := by
    rw [Nat.shiftRight_eq_div_pow]
    exact (Nat.one_le_div_iff (by positivity)).mpr hH
  have hsplit : H >>> 10 = (H >>> k) >>> (10 - k) := by
    rw [← Nat.shiftRight_add]
    congr 1
    omega
  have hmul : (H >>> k) >>> (10 - k) * 2 ^ (10 - k) ≤ H >>> k := by
    rw [Nat.shiftRight_eq_div_pow]
    exact Nat.div_mul_le_self _ _
  have h2 : 2 ≤ 2 ^ (10 - k) := by
    have h3 : (1 : Nat) ≤ 10 - k := by omega
    calc (2 : Nat) = 2 ^ 1 := by norm_num
      _ ≤ 2 ^ (10 - k) := Nat.pow_le_pow_right (by norm_num) h3
  calc H >>> 10 < H >>> 10 * 2 := by omega
    _ ≤ H >>> 10 * 2 ^ (10 - k) := Nat.mul_le_mul_left _ h2
    _ = (H >>> k) >>> (10 - k) * 2 ^ (10 - k) := by rw [← hsplit]
    _ ≤ H >>> k := hmul

/-- Stopping case of the refinement loop: `test_bit` has reached
`high_bit >> 10`. -/
theorem calibRefineAux_base (tml : Nat → Bool) (H L : Nat) :
    calibRefineAux tml H (H >>> 10) L = L := by
  rw [calibRefineAux.eq_def]
  simp

/-- One iteration of the refinement loop, for `k < 10` and a coarse value of
at least `2 ^ 10`: test `H ||| (H >>> k)`, keep the bit on a negative
measurement, and move to the next lower bit. -/
theorem calibRefineAux_step (tml : Nat → Bool) (H k L : Nat) (hk : k < 10)
    (hH : 2 ^ 10 ≤ H) :
    calibRefineAux tml H (H >>> k) L =
      calibRefineAux tml H (H >>> (k + 1)) (refineStep tml H L k) := by
  have hlt := shiftRight_ten_lt H k hk hH
  conv_lhs => rw [calibRefineAux.eq_def]
  rw [if_neg (by omega), dif_neg (by omega), Nat.shiftRight_add]
  rfl

/-- The C refinement loop entered at `test_bit = H >>> k` computes the
upward `refineStep` loop over bit indices `k, …, 9`. -/
theorem calibRefineAux_eq_refineFrom (tml : Nat → Bool) (H : Nat)
    (hH : 2 ^ 10 ≤ H) :
    ∀ j k L, k = 10 - j → 1 ≤ k →
      calibRefineAux tml H (H >>> k) L = refineFrom tml H j k L := by
  intro j
  induction j with
  | zero =>
    intro k L hk h1
    have : k = 10 := by omega
    subst this
    rw [calibRefineAux_base]
    rfl
  | succ j ih =>
    intro k L hk h1
    have hk10 : k < 10 := by omega
    rw [calibRefineAux_step tml H k L hk10 hH]
    rw [ih (k + 1) (refineStep tml H L k) (by omega) (by omega)]
    rw [refineFrom]
    rw [if_pos hk10]

/-! ## Claim theorems -/

/-- C10: `busy_wait` terminates for every `int64` argument `n`, executing
exactly `max n 0` iterations of the loop body; in particular a call with
`n ≤ 0` — e.g. `real_time_sleep` reaching the busy-wait branch with a
negative `num` — performs zero iterations. -/
theorem busy_wait_exact_iterations (loops : Int) :
    (busy_wait loops : Int) = max loops 0 :=
  busy_wait_iters loops

/-- C1 (counterexample): with a measurement that is constantly false every
candidate bit is kept, so over the coarse value `H = 2 ^ 10` the code keeps
exactly the nine bits `H >>> 1, …, H >>> 9` (result 2046), while the
algorithm the claim describes would also keep a tenth bit `H >>> 10 = 1`
(result 2047): the C loop stops before testing `high_bit >> 10`, and it
tests `high_bit | test_bit`, not the accumulated `loops_per_tick` value. -/
theorem timer_calibrate_refine_ne_claimC1 :
    timer_calibrate_refine (fun _ => false) 1024 = 2046 ∧
      refineClaimC1 (fun _ => false) 1024 = 2047 := by
  constructor
  · have h := calibRefineAux_eq_refineFrom (fun _ => false) 1024 (by norm_num)
      9 1 1024 (by norm_num) (by norm_num)
    unfold timer_calibrate_refine
    rw [h]
    decide
  · decide

/-- C1 (amended): in timer_calibrate's refinement phase, with `H` the
coarse power-of-two value (always at least `2 ^ 10`), the candidate bits
`b` range over `H >>> 1, …, H >>> 9` (nine bits), and each bit is kept in
the accumulated result exactly when `too_many_loops (H ||| b)` is false —
the test is made against the coarse value `H` alone, not against the
accumulated result. -/
theorem timer_calibrate_refine_amended (tml : Nat → Bool) (H : Nat)
    (hH : 2 ^ 10 ≤ H) :
    timer_calibrate_refine tml H = refineNineBits tml H := by
  unfold timer_calibrate_refine refineNineBits
  exact calibRefineAux_eq_refineFrom tml H hH 9 1 H (by norm_num) (by norm_num)

/-- C1 (witness): the amended statement at the smallest coarse value
`H = 2 ^ 10` with a concrete measurement function. -/
theorem timer_calibrate_refine_amended_witness :
    2 ^ 10 ≤ 1024 ∧
      timer_calibrate_refine (fun n => 1536 < n) 1024 =
        refineNineBits (fun n => 1536 < n) 1024 :=
  ⟨by norm_num, timer_calibrate_refine_amended (fun n => 1536 < n) 1024 (by norm_num)⟩

/-- C2: a thread calling `timer_sleep n` with `n > 0` while the counter
reads `start` is queued with `wake_tick = start + n`, and whenever a later
tick interrupt unblocks that entry, the tick counter at the moment of
unblock — hence also when the call returns — is at least `start + n`. -/
theorem timer_sleep_no_early_wake (st : TimerState) (tid : Nat) (n : Int)
    (evs : List Ev) (T : Int) (_hn : 0 < n)
    (hmem : ((⟨tid, timer_ticks st + n⟩ : SleepEntry), T) ∈
      (runEvents (timer_sleep tid n st).1 evs).2) :
    timer_ticks st + n ≤ T :=
  runEvents_log_due (timer_sleep tid n st).1 evs _ hmem

/-- C2 (witness): from `ticks = 0`, thread 1 sleeps 2 ticks; it is
unblocked by the second tick interrupt, at counter value 2 ≥ 0 + 2. -/
theorem timer_sleep_no_early_wake_witness :
    0 < (2 : Int) ∧ timer_ticks ⟨0, []⟩ + 2 ≤ 2 :=
  ⟨by norm_num,
    timer_sleep_no_early_wake ⟨0, []⟩ 1 2 [Ev.tick, Ev.tick] 2 (by norm_num)
      (by decide)⟩

/-- C3: on a tick the handler drains the (sorted) queue from the head: the
unblocked entries are exactly the prefix of entries with
`wake_tick ≤ ticks`, where `ticks` is the counter value the handler works
with (its value after the increment at handler entry), and the rest of the
queue survives; in particular a sleeper whose `wake_tick` equals that value
is unblocked during this very tick, and one whose `wake_tick` is one
greater is not. -/
theorem timer_interrupt_drains_due (st : TimerState)
    (hs : SQSorted st.sleeping_list) :
    (timer_interrupt st).2 =
        st.sleeping_list.takeWhile (fun e => e.wake_tick ≤ timer_ticks st + 1) ∧
      (timer_interrupt st).1.sleeping_list =
        st.sleeping_list.dropWhile (fun e => e.wake_tick ≤ timer_ticks st + 1) ∧
      (∀ e ∈ st.sleeping_list, e.wake_tick = timer_ticks st + 1 →
        e ∈ (timer_interrupt st).2) ∧
      (∀ e ∈ st.sleeping_list, e.wake_tick = timer_ticks st + 2 →
        e ∉ (timer_interrupt st).2) := by
  refine ⟨?_, ?_, ?_, ?_⟩
  · simp [timer_interrupt, drain_eq, timer_ticks]
  · simp [timer_interrupt, drain_eq, timer_ticks]
  · intro e he hw
    simp only [timer_ticks] at hw
    simp only [timer_interrupt, drain_eq, timer_ticks]
    exact mem_takeWhile_of_sorted (st.ticks + 1) _ hs e he (by omega)
  · intro e he hw hcontra
    simp only [timer_ticks] at hw
    simp only [timer_interrupt, drain_eq, timer_ticks] at hcontra
    have := mem_takeWhile_le (st.ticks + 1) _ e hcontra
    omega

/-- C3 (witness): at counter 0, with sleepers due at ticks 1 and 2, the
tick unblocks exactly the first of them. -/
theorem timer_interrupt_drains_due_witness :
    SQSorted [(⟨1, 1⟩ : SleepEntry), ⟨2, 2⟩] ∧
      (timer_interrupt ⟨0, [⟨1, 1⟩, ⟨2, 2⟩]⟩).2 =
        List.takeWhile
          (fun e => e.wake_tick ≤ timer_ticks ⟨0, [⟨1, 1⟩, ⟨2, 2⟩]⟩ + 1)
          [(⟨1, 1⟩ : SleepEntry), ⟨2, 2⟩] :=
  ⟨by decide, (timer_interrupt_drains_due ⟨0, [⟨1, 1⟩, ⟨2, 2⟩]⟩ (by decide)).1⟩

/-- C4: `timer_sleep` with `n > 0` inserts the new entry after every
existing entry with `wake_tick ≤ start + n` — in particular after every
entry whose `wake_tick` equals it — and before every entry with a strictly
greater `wake_tick`, so sleepers with equal wake ticks keep the FIFO order
of their `timer_sleep` calls. -/
theorem timer_sleep_tie_break (st : TimerState) (tid : Nat) (n : Int)
    (hn : 0 < n) (hs : SQSorted st.sleeping_list) :
    ∃ pre post,
      st.sleeping_list = pre ++ post ∧
      (timer_sleep tid n st).1.sleeping_list =
        pre ++ (⟨tid, timer_ticks st + n⟩ : SleepEntry) :: post ∧
      (∀ e ∈ pre, e.wake_tick ≤ timer_ticks st + n) ∧
      (∀ e ∈ post, timer_ticks st + n < e.wake_tick) := by
  refine ⟨st.sleeping_list.takeWhile (fun e => e.wake_tick ≤ timer_ticks st + n),
    st.sleeping_list.dropWhile (fun e => e.wake_tick ≤ timer_ticks st + n),
    ?_, ?_, ?_, ?_⟩
  · exact (List.takeWhile_append_dropWhile _ _).symm
  · show (timer_sleep tid n st).1.sleeping_list = _
    unfold timer_sleep
    rw [if_neg (by omega)]
    exact list_insert_ordered_split ⟨tid, timer_ticks st + n⟩ st.sleeping_list
  · intro e he
    exact mem_takeWhile_le _ _ _ he
  · intro e he
    exact mem_dropWhile_gt _ _ hs e he

/-- C4 (witness): inserting a sleeper with wake tick 2 into a queue already
holding wake ticks 2 and 3 puts it after the equal entry and before the
later one. -/
theorem timer_sleep_tie_break_witness :
    0 < (2 : Int) ∧ SQSorted [(⟨1, 2⟩ : SleepEntry), ⟨2, 3⟩] ∧
      ∃ pre post,
        ([(⟨1, 2⟩ : SleepEntry), ⟨2, 3⟩] : List SleepEntry) = pre ++ post ∧
        (timer_sleep 3 2 ⟨0, [⟨1, 2⟩, ⟨2, 3⟩]⟩).1.sleeping_list =
          pre ++ (⟨3, timer_ticks ⟨0, [⟨1, 2⟩, ⟨2, 3⟩]⟩ + 2⟩ : SleepEntry) :: post ∧
        (∀ e ∈ pre, e.wake_tick ≤ timer_ticks ⟨0, [⟨1, 2⟩, ⟨2, 3⟩]⟩ + 2) ∧
        (∀ e ∈ post, timer_ticks ⟨0, [⟨1, 2⟩, ⟨2, 3⟩]⟩ + 2 < e.wake_tick) :=
  ⟨by norm_num, by decide,
    timer_sleep_tie_break ⟨0, [⟨1, 2⟩, ⟨2, 3⟩]⟩ 3 2 (by norm_num) (by decide)⟩

/-- C5: `real_time_sleep num denom` computes `whole = num * F / denom` with
integer division rounding toward zero; when `whole > 0` it dispatches
`timer_sleep whole`, otherwise — requiring `denom % 1000 == 0`, else the
`ASSERT` fires (`none`) — it dispatches a busy-wait of
`loops_per_tick * num / 1000 * F / (denom / 1000)` iterations, the
operations associated left to right. -/
theorem real_time_sleep_spec (F : Int) (lpt : Nat) (num denom : Int) :
    real_time_sleep F lpt num denom =
      if 0 < truncDiv (num * F) denom then
        some (RTAction.sleep (truncDiv (num * F) denom))
      else if denom.tmod 1000 = 0 then
        some (RTAction.busy
          (truncDiv (truncDiv ((lpt : Int) * num) 1000 * F) (truncDiv denom 1000)))
      else none := by
  simp only [real_time_sleep, tdiv_eq_truncDiv]

/-- C6: the ascending-`wake_tick` ordering of the sleep queue is preserved
both by `timer_sleep`'s insertion and by the tick handler's drain. -/
theorem sleep_queue_sorted_preserved (st : TimerState) (tid : Nat) (n : Int)
    (hs : SQSorted st.sleeping_list) :
    SQSorted (timer_sleep tid n st).1.sleeping_list ∧
      SQSorted (timer_interrupt st).1.sleeping_list := by
  constructor
  · show SQSorted (timer_sleep tid n st).1.sleeping_list
    unfold timer_sleep
    by_cases h : n ≤ 0
    · rw [if_pos h]
      exact hs
    · rw [if_neg h]
      exact list_insert_ordered_sorted _ _ hs
  · have h : (timer_interrupt st).1.sleeping_list =
        st.sleeping_list.dropWhile (fun e => e.wake_tick ≤ st.ticks + 1) := by
      simp [timer_interrupt, drain_eq]
    rw [h]
    exact List.Pairwise.sublist (List.dropWhile_sublist _) hs

/-- C6 (witness): both operations applied to a sorted two-element queue. -/
theorem sleep_queue_sorted_preserved_witness :
    SQSorted [(⟨1, 1⟩ : SleepEntry), ⟨2, 3⟩] ∧
      (SQSorted (timer_sleep 3 2 ⟨0, [⟨1, 1⟩, ⟨2, 3⟩]⟩).1.sleeping_list ∧
        SQSorted (timer_interrupt ⟨0, [⟨1, 1⟩, ⟨2, 3⟩]⟩).1.sleeping_list) :=
  ⟨by decide, sleep_queue_sorted_preserved ⟨0, [⟨1, 1⟩, ⟨2, 3⟩]⟩ 3 2 (by decide)⟩

/-- C7: `timer_sleep` with a non-positive argument returns at once: the
state — in particular the sleep queue — is unchanged and `thread_block` is
not called. -/
theorem timer_sleep_nonpos_noop (st : TimerState) (tid : Nat) (n : Int)
    (hn : n ≤ 0) : timer_sleep tid n st = (st, false) := by
  unfold timer_sleep
  rw [if_pos hn]

/-- C7 (witness): `timer_sleep (-7)` on a one-sleeper queue is an exact
no-op. -/
theorem timer_sleep_nonpos_noop_witness :
    (-7 : Int) ≤ 0 ∧
      timer_sleep 4 (-7) ⟨5, [⟨1, 6⟩]⟩ = (⟨5, [⟨1, 6⟩]⟩, false) :=
  ⟨by norm_num, timer_sleep_nonpos_noop ⟨5, [⟨1, 6⟩]⟩ 4 (-7) (by norm_num)⟩

/-- Tick-counter monotonicity along any single step. -/
theorem runEvents_ticks_mono (st : TimerState) (evs : List Ev) :
    timer_ticks st ≤ timer_ticks (runEvents st evs).1 := by
  induction evs generalizing st with
  | nil => exact le_refl _
  | cons e evs ih =>
    have hstep : timer_ticks st ≤ timer_ticks (stepEv st e).1 := by
      cases e with
      | sleep tid n =>
        show timer_ticks st ≤ timer_ticks (timer_sleep tid n st).1
        unfold timer_sleep timer_ticks
        split
        · exact le_refl _
        · exact le_refl _
      | tick =>
        show timer_ticks st ≤ timer_ticks (timer_interrupt st).1
        show st.ticks ≤ st.ticks + 1
        omega
    simp only [runEvents]
    exact le_trans hstep (ih _)

/-- C8: the tick counter is non-decreasing: the tick handler is the only
event that changes it and adds exactly one, `timer_sleep` leaves it
untouched, and along any event sequence two successive `timer_ticks` reads
`r1` then `r2` satisfy `r1 ≤ r2`. -/
theorem timer_ticks_monotone (st : TimerState) :
    (timer_ticks (timer_interrupt st).1 = timer_ticks st + 1) ∧
      (∀ tid n, timer_ticks (timer_sleep tid n st).1 = timer_ticks st) ∧
      ∀ evs : List Ev, timer_ticks st ≤ timer_ticks (runEvents st evs).1 := by
  refine ⟨rfl, ?_, fun evs => runEvents_ticks_mono st evs⟩
  intro tid n
  unfold timer_sleep timer_ticks
  split
  · rfl
  · rfl

/-- C9: for every `TIMER_FREQ` accepted by the compile-time range check,
the PIT divisor `(1193180 + TIMER_FREQ / 2) / TIMER_FREQ` is at most 65535,
so its assignment to the `uint16_t` count loses no information. -/
theorem pit_count_fits_uint16 (F : Nat) (h19 : 19 ≤ F) (h1000 : F ≤ 1000) :
    pit_count F ≤ 65535 ∧ pit_count F % 2 ^ 16 = pit_count F := by
  have hF : 0 < F := by omega
  have hlt : pit_count F < 65536 := by
    rw [pit_count, Nat.div_lt_iff_lt_mul hF]
    have h2 : F / 2 ≤ 500 := by omega
    omega
  have h216 : (2 : Nat) ^ 16 = 65536 := by norm_num
  exact ⟨by omega, by rw [h216]; exact Nat.mod_eq_of_lt hlt⟩

/-- C9 (witness): the default frequency 100 Hz gives divisor 11932. -/
theorem pit_count_fits_uint16_witness :
    19 ≤ 100 ∧ 100 ≤ 1000 ∧
      (pit_count 100 ≤ 65535 ∧ pit_count 100 % 2 ^ 16 = pit_count 100) :=
  ⟨by norm_num, by norm_num,
    pit_count_fits_uint16 100 (by norm_num) (by norm_num)⟩
